import Mathlib

/-!
componentMetrics: taxonomy store, ingestion and rendering.

A shallow embedding of `main.go`.

* Go strings are modelled by `String`.  The only byte the program inspects is
  the separator `.`, which never occurs inside a multi-byte UTF-8 sequence, so
  splitting on the character agrees with splitting on the byte.
* The interface `metricCategory` is inhabited by exactly two pointer types in the
  program, `*metricCategoryOnly` and `*metricCategoryWithSubCategory`; it is the
  two-constructor type `metricCategory` below.  Every pointer is created fresh by
  the ingest loop and stored in exactly one slot, so mutation through the pointer
  is modelled by replacing the slot.
* The map `messages` is a finite map from origin to entry list (`Finmap`), which
  like a Go map has no iteration order and is determined by its lookups.
* A run-time panic (index out of range) is the result `none`.
-/

namespace ComponentMetrics

/-- The two implementations of the interface `metricCategory`. -/
inductive metricCategory where
  | metricCategoryOnly (Category : String)
  | metricCategoryWithSubCategory (Category : String) (SubCategory : List String)
  deriving DecidableEq, Repr

open metricCategory

/-- Method `GetCategory` of both implementations. -/
def metricCategory.GetCategory : metricCategory → String
  | metricCategoryOnly c => c
  | metricCategoryWithSubCategory c _ => c

/-- The search `strings.Index(s, ".")` together with the two slices `s[:m]` and
`s[m+1:]` taken around the hit; `none` when there is no `.` in `s`. -/
def cutAtDot : List Char → Option (List Char × List Char)
  | [] => none
  | ch :: rest =>
    if ch = '.' then some ([], rest)
    else (cutAtDot rest).map (fun p => (ch :: p.1, p.2))

/-- Library call `strings.SplitN(s, ".", 2)`: at most two substrings, the second
being the unsplit remainder after the first separator. -/
def SplitN (s : String) : List String :=
  match cutAtDot s.data with
  | none => [s]
  | some (a, b) => [String.mk a, String.mk b]

/-- Function `parseMetric` of `main.go`. -/
def parseMetric (metric : String) : String × String :=
  let separatedMetric := SplitN metric
  match separatedMetric with
  | a :: b :: _ => (a, b)
  | _ => (metric, "")

/-- The `range` loop of `indexOf`, with the running index made explicit. -/
def indexOfLoop (key : String) : List metricCategory → Nat → Int
  | [], _ => -1
  | entry :: rest, index =>
    if entry.GetCategory = key then (index : Int) else indexOfLoop key rest (index + 1)

/-- Function `indexOf` of `main.go`. -/
def indexOf (metricsCollected : List metricCategory) (key : String) : Int :=
  indexOfLoop key metricsCollected 0

/-- Function `contains` of `main.go`. -/
def contains : List String → String → Bool
  | [], _ => false
  | entry :: rest, value => if entry = value then true else contains rest value

/-- The map `messages`: origin to ordered entry list. -/
abbrev Store := Finmap (fun _ : String => List metricCategory)

/-- Map indexing `messages[origin]`: the nil slice for an absent key. -/
def messagesAt (messages : Store) (origin : String) : List metricCategory :=
  (messages.lookup origin).getD []

/-- Body of the event loop of `main` for one value metric with the given origin
and name (lines 76 to 103).  `none` is the index-out-of-range panic of
`messages[origin][index]`. -/
def Ingest (messages : Store) (origin name : String) : Option Store :=
  let (category, subCategory) := parseMetric name
  let index := indexOf (messagesAt messages origin) category
  if index ≥ 0 then
    match (messagesAt messages origin)[index.toNat]? with
    | none => none
    | some (metricCategoryWithSubCategory c subs) =>
      if subCategory.length > 0 then
        if contains subs subCategory = false then
          some (messages.insert origin
            ((messagesAt messages origin).set index.toNat
              (metricCategoryWithSubCategory c (subs ++ [subCategory]))))
        else some messages
      else some messages
    | some (metricCategoryOnly _) => some messages
  else
    if subCategory.length > 0 then
      some (messages.insert origin
        (messagesAt messages origin ++ [metricCategoryWithSubCategory category [subCategory]]))
    else
      some (messages.insert origin
        (messagesAt messages origin ++ [metricCategoryOnly category]))

/-- The event loop of `main` over a finite prefix of the stream of value metrics,
each event being a pair (origin, name). -/
def IngestAll (messages : Store) : List (String × String) → Option Store
  | [] => some messages
  | e :: rest => (Ingest messages e.1 e.2).bind (fun m => IngestAll m rest)

/-- The inner `for len(sub) > 0` loop of `printSubCategory` for the subcategory
`subCat`, run for at most `fuel` iterations; `none` when the guard still holds
after `fuel` iterations.  The loop variable `base` is never read and is left out. -/
def subCategoryLoop (subCat : String) : Nat → String → String → Option String
  | fuel, t, sub =>
    if sub.length > 0 then
      match fuel with
      | 0 => none
      | fuel + 1 =>
        subCategoryLoop subCat fuel
          (t ++ ("<table border =0><tr><td>" ++ sub ++ "</td></tr>"))
          (parseMetric subCat).2
    else some t

/-- The `range f.SubCategory` loop of `printSubCategory`, threading `t`. -/
def subCategoryRows (fuel : Nat) : List String → String → Option String
  | [], t => some t
  | subCat :: rest, t =>
    let (base, sub) := parseMetric subCat
    (subCategoryLoop subCat fuel (t ++ ("<tr><td>" ++ base)) sub).bind
      (fun t1 => subCategoryRows fuel rest (t1 ++ "</td></tr>"))

/-- Closure `printSubCategory` of `render`; each inner loop may run for at most
`fuel` iterations. -/
def printSubCategory (fuel : Nat) : metricCategory → Option String
  | metricCategoryWithSubCategory _ subs =>
    (subCategoryRows fuel subs "<td><table border=0>").map (fun t => t ++ "</table></td>")
  | metricCategoryOnly _ => some "<td style=\"border-left:none\"></td>"

/-- Categories of an entry list, in list order. -/
def categoriesOf (entries : List metricCategory) : List String :=
  entries.map metricCategory.GetCategory

/-- First-seen order of a sequence: scan left to right and keep an element only
when it has not been kept before. -/
def firstSeen (xs : List String) : List String :=
  xs.foldl (fun acc x => if x ∈ acc then acc else acc ++ [x]) []

/-- The first entry of a list whose `Category` equals `key`, if any. -/
def firstFor (entries : List metricCategory) (key : String) : Option metricCategory :=
  entries.find? (fun x => x.GetCategory = key)

/-- Store invariant: within each origin's entry list the categories are pairwise
distinct. -/
def CategoriesUnique (messages : Store) : Prop :=
  ∀ o, (categoriesOf (messagesAt messages o)).Nodup

/-- Store invariant: every entry with subcategories has a duplicate-free
subcategory list. -/
def SubCategoriesDistinct (messages : Store) : Prop :=
  ∀ o c L, metricCategoryWithSubCategory c L ∈ messagesAt messages o → L.Nodup

/-- The non-empty remainders of the events with origin `o` and category `c`, in
arrival order. -/
def remaindersFor (events : List (String × String)) (o c : String) : List String :=
  (events.filter (fun e => e.1 = o ∧ (parseMetric e.2).1 = c ∧ (parseMetric e.2).2 ≠ "")).map
    (fun e => (parseMetric e.2).2)

/-- The first event with origin `o` and category `c`, if any. -/
def firstEventFor (events : List (String × String)) (o c : String) :
    Option (String × String) :=
  events.find? (fun e => e.1 = o ∧ (parseMetric e.2).1 = c)

/-- The type switch in the body of the inner loop of `totalMetrics`: the value of
`total` after one entry.  `total` is a Go `int`; it counts stored strings and
entries, so it stays far below the word size and is a natural number here. -/
def categoryGroupStep (total : Nat) : metricCategory → Nat
  | metricCategoryWithSubCategory _ subs => total + subs.length
  | metricCategoryOnly _ => total + 1

/-- The inner loop `for _, categoryGroup := range origin` of `totalMetrics`. -/
def originLoop (total : Nat) (origin : List metricCategory) : Nat :=
  origin.foldl categoryGroupStep total

theorem originLoop_eq_add (origin : List metricCategory) (total : Nat) :
    originLoop total origin = total + originLoop 0 origin := by
  induction origin generalizing total with
  | nil => simp [originLoop]
  | cons x rest ih =>
    simp only [originLoop, List.foldl_cons] at ih ⊢
    rw [ih (categoryGroupStep total x), ih (categoryGroupStep 0 x)]
    cases x <;> simp only [categoryGroupStep] <;> omega

/-- Closure `totalMetrics` of `render`.  The outer loop ranges over the map in an
unspecified order; the fold is over the unordered entries, which is well defined
because the loop body commutes. -/
def totalMetrics (metrics : Store) : Nat :=
  Finmap.foldl (fun total _ origin => originLoop total origin)
    (fun d _ b₁ _ b₂ => by
      show originLoop (originLoop d b₁) b₂ = originLoop (originLoop d b₂) b₁
      rw [originLoop_eq_add b₂, originLoop_eq_add b₁, originLoop_eq_add b₁ (originLoop d b₂),
        originLoop_eq_add b₂ d]
      omega)
    0 metrics

/-- Closure `buildOriginRowSpan` of `render`; `%d` prints the length in decimal. -/
def buildOriginRowSpan (indexOfSlice : Int) (origin : String)
    (categories : List metricCategory) : String :=
  if indexOfSlice = 0 then
    if categories.length > 1 then
      "<td rowspan=" ++ toString categories.length ++ ">" ++ origin ++ "</td>"
    else
      "<td>" ++ origin ++ "</td>"
  else ""

/-- What one entry counts for in the aggregate of the spec: 1 for a
`metricCategoryOnly`, the number of subcategories otherwise. -/
def leafWeight : metricCategory → Nat
  | metricCategoryOnly _ => 1
  | metricCategoryWithSubCategory _ subs => subs.length

/-- The aggregate `TotalMetrics` in the words of the spec: the sum, over all
origins and all entries of each origin, of the weight of the entry. -/
def specTotalMetrics (metrics : Store) : Nat :=
  (metrics.entries.map (fun e => (e.2.map leafWeight).sum)).sum

/-- An entry is kept by a later store: same category, same variant, and for an
entry with subcategories the old list is a prefix of the new one. -/
def keepsEntry : metricCategory → metricCategory → Prop
  | metricCategoryOnly c, metricCategoryOnly c1 => c1 = c
  | metricCategoryWithSubCategory c L, metricCategoryWithSubCategory c1 L1 =>
    c1 = c ∧ L <+: L1
  | _, _ => False

/-- Store invariant: an origin that is present has at least one entry, and every
entry with subcategories has at least one subcategory, none of them empty. -/
def NonEmptyEntries (messages : Store) : Prop :=
  (∀ o, o ∈ messages → messagesAt messages o ≠ []) ∧
  ∀ o c L, metricCategoryWithSubCategory c L ∈ messagesAt messages o → L ≠ [] ∧ "" ∉ L

/-- The pair (origin, name) is settled in a store: the first entry for the name's
category in the origin's list is a `metricCategoryOnly`, or it has subcategories and
the name's remainder is empty or among them. -/
def Settled (messages : Store) (o n : String) : Prop :=
  match firstFor (messagesAt messages o) (parseMetric n).1 with
  | some (metricCategoryOnly _) => True
  | some (metricCategoryWithSubCategory _ L) =>
    (parseMetric n).2 = "" ∨ (parseMetric n).2 ∈ L
  | none => False

/-! ## The name parser -/

theorem cutAtDot_eq_none {l : List Char} (h : '.' ∉ l) : cutAtDot l = none := by
  induction l with
  | nil => rfl
  | cons ch rest ih =>
    have h1 : ch ≠ '.' := fun e => h (by simp [e])
    have h2 : '.' ∉ rest := fun m => h (List.mem_cons_of_mem _ m)
    simp [cutAtDot, h1, ih h2]

theorem cutAtDot_of_mem {l : List Char} (h : '.' ∈ l) :
    ∃ a b, cutAtDot l = some (a, b) ∧ '.' ∉ a ∧ l = a ++ '.' :: b := by
  induction l with
  | nil => simp at h
  | cons ch rest ih =>
    by_cases h1 : ch = '.'
    · exact ⟨[], rest, by simp [cutAtDot, h1], by simp, by simp [h1]⟩
    · have h2 : '.' ∈ rest := by
        rcases List.mem_cons.1 h with e | m
        · exact absurd e.symm h1
        · exact m
      obtain ⟨a, b, hc, ha, hl⟩ := ih h2
      refine ⟨ch :: a, b, by simp [cutAtDot, h1, hc], ?_, by simp [hl]⟩
      intro m
      rcases List.mem_cons.1 m with e | m
      · exact h1 e.symm
      · exact ha m

theorem parseMetric_of_not_mem {name : String} (h : '.' ∉ name.data) :
    parseMetric name = (name, "") := by
  simp [parseMetric, SplitN, cutAtDot_eq_none h]

theorem parseMetric_of_mem {name : String} (h : '.' ∈ name.data) :
    '.' ∉ (parseMetric name).1.data ∧
      name = (parseMetric name).1 ++ "." ++ (parseMetric name).2 := by
  obtain ⟨a, b, hc, ha, hl⟩ := cutAtDot_of_mem h
  have hp : parseMetric name = (String.mk a, String.mk b) := by
    simp [parseMetric, SplitN, hc]
  rw [hp]
  refine ⟨ha, ?_⟩
  apply String.ext
  simp [hl]

/-- C1: `parseMetric` splits at the first `.` only.  A name without `.` is returned
whole with an empty remainder; otherwise the category has no `.` and the name is
category, then `.`, then remainder.  The four sample values of the spec hold. -/
theorem parseMetric_splits_at_first_dot (name : String) :
    ('.' ∉ name.data → parseMetric name = (name, "")) ∧
    ('.' ∈ name.data →
      '.' ∉ (parseMetric name).1.data ∧
        name = (parseMetric name).1 ++ "." ++ (parseMetric name).2) ∧
    parseMetric "foo" = ("foo", "") ∧
    parseMetric "foo.bar" = ("foo", "bar") ∧
    parseMetric "foo.bar.baz" = ("foo", "bar.baz") ∧
    parseMetric "" = ("", "") :=
  ⟨parseMetric_of_not_mem, parseMetric_of_mem, by decide, by decide, by decide, by decide⟩

/-! ## Lookup helpers -/

theorem length_pos_iff (r : String) : r.length > 0 ↔ r ≠ "" := by
  rw [String.length, gt_iff_lt, List.length_pos, ne_eq, ne_eq, String.ext_iff]

theorem contains_iff (L : List String) (v : String) : contains L v = true ↔ v ∈ L := by
  induction L with
  | nil => simp [contains]
  | cons x rest ih =>
    by_cases h : x = v
    · simp [contains, h]
    · have h' : ¬ v = x := fun e => h e.symm
      simp [contains, h, h', ih]

theorem contains_eq_false_iff (L : List String) (v : String) :
    contains L v = false ↔ v ∉ L := by
  rw [← contains_iff]
  cases contains L v <;> simp

theorem indexOfLoop_not_mem {key : String} {xs : List metricCategory}
    (h : key ∉ categoriesOf xs) (k : Nat) : indexOfLoop key xs k = -1 := by
  induction xs generalizing k with
  | nil => rfl
  | cons e rest ih =>
    simp only [categoriesOf, List.map_cons, List.mem_cons, not_or] at h
    have h1 : ¬ e.GetCategory = key := fun e1 => h.1 e1.symm
    simp only [indexOfLoop, h1, if_false]
    exact ih h.2 (k + 1)

theorem indexOfLoop_first {key : String} {pre : List metricCategory} {e : metricCategory}
    (post : List metricCategory) (h : key ∉ categoriesOf pre) (he : e.GetCategory = key)
    (k : Nat) : indexOfLoop key (pre ++ e :: post) k = ((k + pre.length : Nat) : Int) := by
  induction pre generalizing k with
  | nil => simp [indexOfLoop, he]
  | cons x rest ih =>
    simp only [categoriesOf, List.map_cons, List.mem_cons, not_or] at h
    have h1 : ¬ x.GetCategory = key := fun e1 => h.1 e1.symm
    show indexOfLoop key (x :: (rest ++ e :: post)) k = _
    rw [indexOfLoop, if_neg h1, ih h.2 (k + 1), List.length_cons]
    congr 1
    omega

theorem exists_first {key : String} {xs : List metricCategory} (h : key ∈ categoriesOf xs) :
    ∃ pre e post, xs = pre ++ e :: post ∧ key ∉ categoriesOf pre ∧ e.GetCategory = key := by
  induction xs with
  | nil => simp [categoriesOf] at h
  | cons x rest ih =>
    by_cases hx : x.GetCategory = key
    · exact ⟨[], x, rest, rfl, by simp [categoriesOf], hx⟩
    · have h2 : key ∈ categoriesOf rest := by
        simp only [categoriesOf, List.map_cons, List.mem_cons] at h
        rcases h with e1 | m
        · exact absurd e1.symm hx
        · exact m
      obtain ⟨pre, e, post, hxs, hpre, he⟩ := ih h2
      refine ⟨x :: pre, e, post, by simp [hxs], ?_, he⟩
      simp only [categoriesOf, List.map_cons, List.mem_cons, not_or]
      exact ⟨fun e1 => hx e1.symm, hpre⟩

theorem find_first {key : String} {pre : List metricCategory} {e : metricCategory}
    (post : List metricCategory) (h : key ∉ categoriesOf pre) (he : e.GetCategory = key) :
    firstFor (pre ++ e :: post) key = some e := by
  unfold firstFor
  induction pre with
  | nil => simp [he]
  | cons x rest ih =>
    simp only [categoriesOf, List.map_cons, List.mem_cons, not_or] at h
    have h1 : ¬ x.GetCategory = key := fun e1 => h.1 e1.symm
    simp only [List.cons_append, List.find?_cons, h1, decide_False]
    exact ih h.2

theorem find_none {key : String} {xs : List metricCategory} (h : key ∉ categoriesOf xs) :
    firstFor xs key = none := by
  rw [firstFor, List.find?_eq_none]
  intro x hx hk
  apply h
  simp only [categoriesOf, List.mem_map]
  exact ⟨x, hx, by simpa using hk⟩

theorem getElem_first (pre post : List metricCategory) (e : metricCategory)
    (h : pre.length < (pre ++ e :: post).length) : (pre ++ e :: post)[pre.length] = e := by
  rw [List.getElem_append_right (Nat.le_refl _)]
  simp

theorem messagesAt_insert (s : Store) (o o' : String) (v : List metricCategory) :
    messagesAt (s.insert o v) o' = if o' = o then v else messagesAt s o' := by
  by_cases h : o' = o
  · subst h
    simp [messagesAt, Finmap.lookup_insert]
  · simp [messagesAt, Finmap.lookup_insert_of_ne _ h, h]

theorem messagesAt_empty (o : String) : messagesAt ∅ o = [] := by
  simp [messagesAt, Finmap.lookup_empty]

theorem messagesAt_singleton (o o1 : String) (v : List metricCategory) :
    messagesAt (Finmap.singleton o v) o1 = if o1 = o then v else [] := by
  by_cases h : o1 = o
  · subst h
    simp [messagesAt, Finmap.lookup_singleton_eq]
  · have hn : o1 ∉ (Finmap.singleton o v : Store) := by
      rw [Finmap.mem_singleton]; exact h
    simp [messagesAt, Finmap.lookup_eq_none.2 hn, h]

/-! ## One ingest step, case by case -/

theorem Ingest_new (s : Store) (o n : String)
    (h : (parseMetric n).1 ∉ categoriesOf (messagesAt s o)) :
    Ingest s o n = some (s.insert o (messagesAt s o ++
      [if (parseMetric n).2 = "" then metricCategoryOnly (parseMetric n).1
       else metricCategoryWithSubCategory (parseMetric n).1 [(parseMetric n).2]])) := by
  rcases hp : parseMetric n with ⟨c, r⟩
  rw [hp] at h
  have hi : indexOf (messagesAt s o) c = -1 := indexOfLoop_not_mem h 0
  by_cases hr : r = ""
  · have hl : ¬ r.length > 0 := by rw [length_pos_iff]; simpa using hr
    simp [Ingest, hp, hi, hl, hr]
  · have hl : r.length > 0 := (length_pos_iff r).2 hr
    simp [Ingest, hp, hi, hl, hr]

theorem Ingest_only (s : Store) (o n : String) (pre post : List metricCategory)
    (hxs : messagesAt s o = pre ++ metricCategoryOnly (parseMetric n).1 :: post)
    (hpre : (parseMetric n).1 ∉ categoriesOf pre) :
    Ingest s o n = some s := by
  rcases hp : parseMetric n with ⟨c, r⟩
  rw [hp] at hxs hpre
  dsimp only at hxs hpre
  have hi : indexOf (pre ++ metricCategoryOnly c :: post) c = (pre.length : Int) := by
    have := indexOfLoop_first (e := metricCategoryOnly c) post hpre rfl 0
    simpa [indexOf] using this
  simp [Ingest, hp, hi, hxs, getElem_first]

theorem Ingest_sub (s : Store) (o n : String) (pre post : List metricCategory)
    (L : List String)
    (hxs : messagesAt s o = pre ++ metricCategoryWithSubCategory (parseMetric n).1 L :: post)
    (hpre : (parseMetric n).1 ∉ categoriesOf pre) :
    Ingest s o n = some
      (if (parseMetric n).2 ≠ "" ∧ (parseMetric n).2 ∉ L then
        s.insert o (pre ++
          metricCategoryWithSubCategory (parseMetric n).1 (L ++ [(parseMetric n).2]) :: post)
       else s) := by
  rcases hp : parseMetric n with ⟨c, r⟩
  rw [hp] at hxs hpre
  dsimp only at hxs hpre
  have hi : indexOf (pre ++ metricCategoryWithSubCategory c L :: post) c
      = (pre.length : Int) := by
    have := indexOfLoop_first (e := metricCategoryWithSubCategory c L) post hpre rfl 0
    simpa [indexOf] using this
  by_cases hr : r = ""
  · have hl : ¬ r.length > 0 := by rw [length_pos_iff]; simpa using hr
    simp [Ingest, hp, hi, hxs, hl, hr, getElem_first]
  · have hl : r.length > 0 := (length_pos_iff r).2 hr
    by_cases hm : r ∈ L
    · have hc : contains L r = true := (contains_iff L r).2 hm
      simp [Ingest, hp, hi, hxs, hl, hr, hm, hc, getElem_first]
    · have hc : contains L r = false := (contains_eq_false_iff L r).2 hm
      simp [Ingest, hp, hi, hxs, hl, hr, hm, hc, getElem_first]

theorem first_decomp {key : String} {xs : List metricCategory} {e : metricCategory}
    (h : firstFor xs key = some e) :
    ∃ pre post, xs = pre ++ e :: post ∧ key ∉ categoriesOf pre ∧ e.GetCategory = key := by
  rw [firstFor, List.find?_eq_some] at h
  obtain ⟨he, pre, post, hxs, hpre⟩ := h
  refine ⟨pre, post, hxs, ?_, by simpa using he⟩
  intro hm
  simp only [categoriesOf, List.mem_map] at hm
  obtain ⟨a, ha, hk⟩ := hm
  have := hpre a ha
  simp [hk] at this

/-- The effect of one ingest step on the store, as seen through lookups: the step
never panics, other origins are untouched, and the origin's list either gains one
entry at the end, or is left alone, or has the subcategory list of the first entry
for the category extended at its end. -/
theorem Ingest_effect (s : Store) (o n : String) :
    ∃ s1, Ingest s o n = some s1 ∧
      (∀ o1, o1 ≠ o → messagesAt s1 o1 = messagesAt s o1) ∧
      (((parseMetric n).1 ∉ categoriesOf (messagesAt s o) ∧
          messagesAt s1 o = messagesAt s o ++
            [if (parseMetric n).2 = "" then metricCategoryOnly (parseMetric n).1
             else metricCategoryWithSubCategory (parseMetric n).1 [(parseMetric n).2]]) ∨
        (∃ pre post, messagesAt s o = pre ++ metricCategoryOnly (parseMetric n).1 :: post ∧
          (parseMetric n).1 ∉ categoriesOf pre ∧ s1 = s) ∨
        (∃ pre L post,
          messagesAt s o = pre ++ metricCategoryWithSubCategory (parseMetric n).1 L :: post ∧
          (parseMetric n).1 ∉ categoriesOf pre ∧
          messagesAt s1 o = pre ++ metricCategoryWithSubCategory (parseMetric n).1
            (if (parseMetric n).2 ≠ "" ∧ (parseMetric n).2 ∉ L then L ++ [(parseMetric n).2]
             else L) :: post ∧
          (¬ ((parseMetric n).2 ≠ "" ∧ (parseMetric n).2 ∉ L) → s1 = s))) := by
  by_cases hmem : (parseMetric n).1 ∈ categoriesOf (messagesAt s o)
  · obtain ⟨pre, e, post, hxs, hpre, he⟩ := exists_first hmem
    cases e with
    | metricCategoryOnly c1 =>
      have hc : c1 = (parseMetric n).1 := he
      subst hc
      exact ⟨s, Ingest_only s o n pre post hxs hpre, fun _ _ => rfl, Or.inr (Or.inl ⟨pre, post, hxs, hpre, rfl⟩)⟩
    | metricCategoryWithSubCategory c1 L =>
      have hc : c1 = (parseMetric n).1 := he
      subst hc
      refine ⟨_, Ingest_sub s o n pre post L hxs hpre, ?_, Or.inr (Or.inr ⟨pre, L, post, hxs, hpre, ?_, ?_⟩)⟩
      · intro o1 ho1
        split
        · rw [messagesAt_insert, if_neg ho1]
        · rfl
      · split
        · rw [messagesAt_insert, if_pos rfl]
        · exact hxs
      · intro hcond
        rw [if_neg hcond]
  · refine ⟨_, Ingest_new s o n hmem, ?_, Or.inl ⟨hmem, ?_⟩⟩
    · intro o1 ho1
      rw [messagesAt_insert, if_neg ho1]
    · rw [messagesAt_insert, if_pos rfl]

/-! ## Properties of one ingest step -/

/-- C2: ingesting the same (origin, name) pair a second time returns without panic
and leaves the store exactly as the first ingestion left it. -/
theorem Ingest_idempotent (s : Store) (o n : String) :
    ∃ s1, Ingest s o n = some s1 ∧ Ingest s1 o n = some s1 := by
  by_cases hmem : (parseMetric n).1 ∈ categoriesOf (messagesAt s o)
  · obtain ⟨pre, e, post, hxs, hpre, he⟩ := exists_first hmem
    cases e with
    | metricCategoryOnly c1 =>
      have hc : c1 = (parseMetric n).1 := he
      subst hc
      exact ⟨s, Ingest_only s o n pre post hxs hpre, Ingest_only s o n pre post hxs hpre⟩
    | metricCategoryWithSubCategory c1 L =>
      have hc : c1 = (parseMetric n).1 := he
      subst hc
      have h1 := Ingest_sub s o n pre post L hxs hpre
      by_cases hcond : (parseMetric n).2 ≠ "" ∧ (parseMetric n).2 ∉ L
      · rw [if_pos hcond] at h1
        refine ⟨_, h1, ?_⟩
        have hxs1 : messagesAt (s.insert o (pre ++ metricCategoryWithSubCategory
            (parseMetric n).1 (L ++ [(parseMetric n).2]) :: post)) o
            = pre ++ metricCategoryWithSubCategory (parseMetric n).1
                (L ++ [(parseMetric n).2]) :: post := by
          rw [messagesAt_insert, if_pos rfl]
        have h2 := Ingest_sub _ o n pre post _ hxs1 hpre
        rw [if_neg (by simp)] at h2
        exact h2
      · rw [if_neg hcond] at h1
        exact ⟨s, h1, h1⟩
  · refine ⟨_, Ingest_new s o n hmem, ?_⟩
    by_cases hr : (parseMetric n).2 = ""
    · simp only [hr, if_true]
      exact Ingest_only (s.insert o (messagesAt s o ++
          [metricCategoryOnly (parseMetric n).1])) o n (messagesAt s o) []
          (by rw [messagesAt_insert, if_pos rfl]) hmem
    · simp only [hr, if_false]
      have h2 := Ingest_sub (s.insert o (messagesAt s o ++
          [metricCategoryWithSubCategory (parseMetric n).1 [(parseMetric n).2]])) o n
          (messagesAt s o) [] [(parseMetric n).2]
          (by rw [messagesAt_insert, if_pos rfl]) hmem
      rw [if_neg (by simp)] at h2
      exact h2

theorem categoriesOf_append (xs ys : List metricCategory) :
    categoriesOf (xs ++ ys) = categoriesOf xs ++ categoriesOf ys := by
  simp [categoriesOf]

theorem categoriesOf_cons (x : metricCategory) (xs : List metricCategory) :
    categoriesOf (x :: xs) = x.GetCategory :: categoriesOf xs := rfl

theorem GetCategory_new (c r : String) :
    (if r = "" then metricCategoryOnly c
      else metricCategoryWithSubCategory c [r]).GetCategory = c := by
  split <;> rfl

/-- How one ingest step changes the category list of any origin. -/
theorem categoriesOf_Ingest (s : Store) (o n o1 : String) :
    ∃ s1, Ingest s o n = some s1 ∧
      categoriesOf (messagesAt s1 o1) =
        if o1 = o then
          (if (parseMetric n).1 ∈ categoriesOf (messagesAt s o1) then
            categoriesOf (messagesAt s o1)
           else categoriesOf (messagesAt s o1) ++ [(parseMetric n).1])
        else categoriesOf (messagesAt s o1) := by
  obtain ⟨s1, h1, hother, hcase⟩ := Ingest_effect s o n
  refine ⟨s1, h1, ?_⟩
  by_cases ho : o1 = o
  · subst ho
    rw [if_pos rfl]
    rcases hcase with ⟨hmem, hnew⟩ | ⟨pre, post, hxs, hpre, hs⟩ | ⟨pre, L, post, hxs, hpre, hnew, -⟩
    · rw [if_neg hmem, hnew, categoriesOf_append, categoriesOf_cons, GetCategory_new]
      rfl
    · have hmem : (parseMetric n).1 ∈ categoriesOf (messagesAt s o1) := by
        rw [hxs, categoriesOf_append, categoriesOf_cons]
        simp [GetCategory]
      rw [if_pos hmem, hs]
    · have hmem : (parseMetric n).1 ∈ categoriesOf (messagesAt s o1) := by
        rw [hxs, categoriesOf_append, categoriesOf_cons]
        simp [GetCategory]
      rw [if_pos hmem, hnew, hxs]
      simp [categoriesOf, GetCategory]
  · rw [if_neg ho, hother o1 ho]

/-- C6: category uniqueness is an invariant of ingestion.  The empty store has it,
and a step from a store that has it returns a store that has it. -/
theorem CategoriesUnique_invariant :
    CategoriesUnique ∅ ∧
    ∀ (s : Store) (o n : String), CategoriesUnique s →
      ∃ s1, Ingest s o n = some s1 ∧ CategoriesUnique s1 := by
  refine ⟨fun o => by simp [messagesAt_empty, categoriesOf], ?_⟩
  intro s o n hinv
  obtain ⟨s1, h1, -⟩ := Ingest_effect s o n
  refine ⟨s1, h1, fun o1 => ?_⟩
  obtain ⟨s2, h2, hcat⟩ := categoriesOf_Ingest s o n o1
  rw [h1] at h2
  cases h2
  rw [hcat]
  by_cases ho : o1 = o
  · rw [if_pos ho]
    by_cases hmem : (parseMetric n).1 ∈ categoriesOf (messagesAt s o1)
    · rw [if_pos hmem]; exact hinv o1
    · rw [if_neg hmem]
      rw [List.nodup_append]
      refine ⟨hinv o1, List.nodup_singleton _, ?_⟩
      intro a ha hb
      rw [List.mem_singleton] at hb
      subst hb
      exact hmem ha
  · rw [if_neg ho]; exact hinv o1

/-- Witness for C6: the origin "r" already holds the categories `foo` and `bar`.
The event ("r", "foo.baz") meets the category `foo` again: the step extends the
entry it finds and adds no second `foo`.  The event ("r", "qux") brings a category
not seen before: the step appends it after the two entries. -/
theorem CategoriesUnique_invariant_witness :
    CategoriesUnique (Finmap.singleton "r"
      [metricCategoryWithSubCategory "foo" ["bar"], metricCategoryOnly "bar"]) ∧
    (∃ s1, Ingest (Finmap.singleton "r"
          [metricCategoryWithSubCategory "foo" ["bar"], metricCategoryOnly "bar"])
          "r" "foo.baz" = some s1 ∧
        CategoriesUnique s1 ∧
        messagesAt s1 "r"
          = [metricCategoryWithSubCategory "foo" ["bar", "baz"], metricCategoryOnly "bar"] ∧
        categoriesOf (messagesAt s1 "r") = ["foo", "bar"]) ∧
    (∃ s2, Ingest (Finmap.singleton "r"
          [metricCategoryWithSubCategory "foo" ["bar"], metricCategoryOnly "bar"])
          "r" "qux" = some s2 ∧
        CategoriesUnique s2 ∧
        messagesAt s2 "r"
          = [metricCategoryWithSubCategory "foo" ["bar"], metricCategoryOnly "bar",
              metricCategoryOnly "qux"] ∧
        categoriesOf (messagesAt s2 "r") = ["foo", "bar", "qux"]) := by
  have h0 : CategoriesUnique (Finmap.singleton "r"
      [metricCategoryWithSubCategory "foo" ["bar"], metricCategoryOnly "bar"]) := by
    intro o
    rw [messagesAt_singleton]
    split
    · decide
    · decide
  obtain ⟨s1, h1, hinv1⟩ := CategoriesUnique_invariant.2 _ "r" "foo.baz" h0
  obtain ⟨s2, h2, hinv2⟩ := CategoriesUnique_invariant.2 _ "r" "qux" h0
  have e1 : Ingest (Finmap.singleton "r"
      [metricCategoryWithSubCategory "foo" ["bar"], metricCategoryOnly "bar"]) "r" "foo.baz"
      = some (Finmap.singleton "r"
        [metricCategoryWithSubCategory "foo" ["bar", "baz"], metricCategoryOnly "bar"]) := by
    decide
  have e2 : Ingest (Finmap.singleton "r"
      [metricCategoryWithSubCategory "foo" ["bar"], metricCategoryOnly "bar"]) "r" "qux"
      = some (Finmap.singleton "r"
        [metricCategoryWithSubCategory "foo" ["bar"], metricCategoryOnly "bar",
          metricCategoryOnly "qux"]) := by
    decide
  have hs1 := Option.some.inj (h1.symm.trans e1)
  have hs2 := Option.some.inj (h2.symm.trans e2)
  refine ⟨h0, ⟨s1, h1, hinv1, ?_, ?_⟩, ⟨s2, h2, hinv2, ?_, ?_⟩⟩
  · rw [hs1]; decide
  · rw [hs1]; decide
  · rw [hs2]; decide
  · rw [hs2]; decide

/-- C7: duplicate-freeness of every subcategory list is an invariant of ingestion.
The empty store has it, and a step from a store that has it returns a store that
has it. -/
theorem SubCategoriesDistinct_invariant :
    SubCategoriesDistinct ∅ ∧
    ∀ (s : Store) (o n : String), SubCategoriesDistinct s →
      ∃ s1, Ingest s o n = some s1 ∧ SubCategoriesDistinct s1 := by
  refine ⟨fun o c L h => by simp [messagesAt_empty] at h, ?_⟩
  intro s o n hinv
  obtain ⟨s1, h1, hother, hcase⟩ := Ingest_effect s o n
  refine ⟨s1, h1, fun o1 c L hin => ?_⟩
  by_cases ho : o1 = o
  · subst ho
    rcases hcase with ⟨-, hnew⟩ | ⟨pre, post, -, -, hs⟩ | ⟨pre, L0, post, hxs, -, hnew, -⟩
    · rw [hnew, List.mem_append, List.mem_singleton] at hin
      rcases hin with hin | hin
      · exact hinv o1 c L hin
      · split at hin
        · cases hin
        · cases hin
          exact List.nodup_singleton _
    · rw [hs] at hin
      exact hinv o1 c L hin
    · have hL0 : L0.Nodup := hinv o1 (parseMetric n).1 L0 (by rw [hxs]; simp)
      rw [hnew, List.mem_append, List.mem_cons] at hin
      rcases hin with hin | hin | hin
      · exact hinv o1 c L (by rw [hxs]; simp [hin])
      · cases hin
        split
        · rename_i hcond
          rw [List.nodup_append]
          refine ⟨hL0, List.nodup_singleton _, ?_⟩
          intro a ha hb
          rw [List.mem_singleton] at hb
          subst hb
          exact hcond.2 ha
        · exact hL0
      · exact hinv o1 c L (by rw [hxs]; simp [hin])
  · rw [hother o1 ho] at hin
    exact hinv o1 c L hin

/-- Witness for C7: the origin "r" already holds `foo` with the subcategories `bar`
and `baz`.  The event ("r", "foo.bar") brings a subcategory that is already stored:
the step adds no second `bar`.  The event ("r", "foo.qux") brings a new one: the
step appends it at the end of the list. -/
theorem SubCategoriesDistinct_invariant_witness :
    SubCategoriesDistinct (Finmap.singleton "r"
      [metricCategoryWithSubCategory "foo" ["bar", "baz"]]) ∧
    (∃ s1, Ingest (Finmap.singleton "r"
          [metricCategoryWithSubCategory "foo" ["bar", "baz"]]) "r" "foo.bar" = some s1 ∧
        SubCategoriesDistinct s1 ∧
        messagesAt s1 "r" = [metricCategoryWithSubCategory "foo" ["bar", "baz"]]) ∧
    (∃ s2, Ingest (Finmap.singleton "r"
          [metricCategoryWithSubCategory "foo" ["bar", "baz"]]) "r" "foo.qux" = some s2 ∧
        SubCategoriesDistinct s2 ∧
        messagesAt s2 "r" = [metricCategoryWithSubCategory "foo" ["bar", "baz", "qux"]]) := by
  have h0 : SubCategoriesDistinct (Finmap.singleton "r"
      [metricCategoryWithSubCategory "foo" ["bar", "baz"]]) := by
    intro o c L hin
    rw [messagesAt_singleton] at hin
    split at hin
    · rw [List.mem_singleton] at hin
      cases hin
      decide
    · cases hin
  obtain ⟨s1, h1, hinv1⟩ := SubCategoriesDistinct_invariant.2 _ "r" "foo.bar" h0
  obtain ⟨s2, h2, hinv2⟩ := SubCategoriesDistinct_invariant.2 _ "r" "foo.qux" h0
  have e1 : Ingest (Finmap.singleton "r"
      [metricCategoryWithSubCategory "foo" ["bar", "baz"]]) "r" "foo.bar"
      = some (Finmap.singleton "r" [metricCategoryWithSubCategory "foo" ["bar", "baz"]]) := by
    decide
  have e2 : Ingest (Finmap.singleton "r"
      [metricCategoryWithSubCategory "foo" ["bar", "baz"]]) "r" "foo.qux"
      = some (Finmap.singleton "r"
        [metricCategoryWithSubCategory "foo" ["bar", "baz", "qux"]]) := by
    decide
  have hs1 := Option.some.inj (h1.symm.trans e1)
  have hs2 := Option.some.inj (h2.symm.trans e2)
  refine ⟨h0, ⟨s1, h1, hinv1, ?_⟩, ⟨s2, h2, hinv2, ?_⟩⟩
  · rw [hs1]; decide
  · rw [hs2]; decide

/-- C8 (promotion rule): when the first entry for the name's category in the
origin's list is a `metricCategoryOnly`, the ingest step returns the store it was
given, whatever the remainder of the name is. -/
theorem Ingest_unchanged_of_CategoryOnly (s : Store) (o n c1 : String)
    (h : firstFor (messagesAt s o) (parseMetric n).1 = some (metricCategoryOnly c1)) :
    Ingest s o n = some s := by
  obtain ⟨pre, post, hxs, hpre, he⟩ := first_decomp h
  have hc : c1 = (parseMetric n).1 := he
  subst hc
  exact Ingest_only s o n pre post hxs hpre

/-- Witness for C8: ingest ("r", "foo") and then ("r", "foo.bar") from the empty
store; the second step changes nothing and the list of "r" stays
`[metricCategoryOnly "foo"]`. -/
theorem Ingest_unchanged_of_CategoryOnly_witness :
    Ingest ∅ "r" "foo" = some (Finmap.singleton "r" [metricCategoryOnly "foo"]) ∧
    messagesAt (Finmap.singleton "r" [metricCategoryOnly "foo"]) "r"
      = [metricCategoryOnly "foo"] ∧
    Ingest (Finmap.singleton "r" [metricCategoryOnly "foo"]) "r" "foo.bar"
      = some (Finmap.singleton "r" [metricCategoryOnly "foo"]) ∧
    IngestAll ∅ [("r", "foo"), ("r", "foo.bar")]
      = some (Finmap.singleton "r" [metricCategoryOnly "foo"]) :=
  ⟨by decide, by decide,
    Ingest_unchanged_of_CategoryOnly (Finmap.singleton "r" [metricCategoryOnly "foo"])
      "r" "foo.bar" "foo" (by decide),
    by decide⟩

/-- C9 (creation on first observation): when no entry of the origin's list has the
name's category, also when the origin is absent, the step appends exactly one entry
at the end of the origin's list: with the remainder as its only subcategory when
the remainder is non-empty, a `metricCategoryOnly` otherwise. -/
theorem Ingest_appends_new_entry (s : Store) (o n c r : String)
    (hp : parseMetric n = (c, r))
    (h : ∀ e ∈ messagesAt s o, e.GetCategory ≠ c) :
    ∃ s1, Ingest s o n = some s1 ∧
      messagesAt s1 o = messagesAt s o ++
        [if r = "" then metricCategoryOnly c else metricCategoryWithSubCategory c [r]] := by
  have hmem : (parseMetric n).1 ∉ categoriesOf (messagesAt s o) := by
    rw [hp]
    intro hm
    simp only [categoriesOf, List.mem_map] at hm
    obtain ⟨e, he, hk⟩ := hm
    exact h e he hk
  refine ⟨_, Ingest_new s o n hmem, ?_⟩
  rw [messagesAt_insert, if_pos rfl, hp]

/-- Witness for C9: the origin "r" already holds the entries `foo` and `bar`, and
the event ("r", "qux.baz") brings the category `qux`, which neither has: the step
keeps both entries and appends `qux` with the subcategory `baz` after them. -/
theorem Ingest_appends_new_entry_witness :
    (∀ e ∈ messagesAt (Finmap.singleton "r"
        [metricCategoryOnly "foo", metricCategoryWithSubCategory "bar" ["x"]]) "r",
      e.GetCategory ≠ "qux") ∧
    ∃ s1, Ingest (Finmap.singleton "r"
        [metricCategoryOnly "foo", metricCategoryWithSubCategory "bar" ["x"]])
        "r" "qux.baz" = some s1 ∧
      messagesAt s1 "r" = messagesAt (Finmap.singleton "r"
          [metricCategoryOnly "foo", metricCategoryWithSubCategory "bar" ["x"]]) "r" ++
        [if "baz" = "" then metricCategoryOnly "qux"
         else metricCategoryWithSubCategory "qux" ["baz"]] ∧
      messagesAt s1 "r"
        = [metricCategoryOnly "foo", metricCategoryWithSubCategory "bar" ["x"],
            metricCategoryWithSubCategory "qux" ["baz"]] := by
  have h0 : ∀ e ∈ messagesAt (Finmap.singleton "r"
      [metricCategoryOnly "foo", metricCategoryWithSubCategory "bar" ["x"]]) "r",
      e.GetCategory ≠ "qux" := by decide
  obtain ⟨s1, h1, hnew⟩ := Ingest_appends_new_entry (Finmap.singleton "r"
    [metricCategoryOnly "foo", metricCategoryWithSubCategory "bar" ["x"]])
    "r" "qux.baz" "qux" "baz" (by decide) h0
  refine ⟨h0, s1, h1, hnew, ?_⟩
  rw [hnew]
  decide

/-- C10 (update of an existing category): when the first entry for the name's
category `c` is a `metricCategoryWithSubCategory` with list `L`, the step replaces
that entry, in place, by one with list `L ++ [r]` when the remainder `r` is
non-empty and not in `L`, and with list `L` otherwise; the entries before and after
it, hence the number and order of entries, are unchanged. -/
theorem Ingest_updates_existing (s : Store) (o n c r : String) (L : List String)
    (hp : parseMetric n = (c, r))
    (h : firstFor (messagesAt s o) c = some (metricCategoryWithSubCategory c L)) :
    ∃ s1 pre post, Ingest s o n = some s1 ∧
      messagesAt s o = pre ++ metricCategoryWithSubCategory c L :: post ∧
      c ∉ categoriesOf pre ∧
      messagesAt s1 o = pre ++ metricCategoryWithSubCategory c
        (if r ≠ "" ∧ r ∉ L then L ++ [r] else L) :: post ∧
      (messagesAt s1 o).length = (messagesAt s o).length ∧
      categoriesOf (messagesAt s1 o) = categoriesOf (messagesAt s o) := by
  obtain ⟨pre, post, hxs, hpre, -⟩ := first_decomp h
  have hc : (parseMetric n).1 = c := by rw [hp]
  have hr : (parseMetric n).2 = r := by rw [hp]
  have h1 := Ingest_sub s o n pre post L (by rw [hc]; exact hxs) (by rw [hc]; exact hpre)
  rw [hc, hr] at h1
  have hnew : messagesAt (if r ≠ "" ∧ r ∉ L then
        s.insert o (pre ++ metricCategoryWithSubCategory c (L ++ [r]) :: post) else s) o
      = pre ++ metricCategoryWithSubCategory c
        (if r ≠ "" ∧ r ∉ L then L ++ [r] else L) :: post := by
    split
    · rw [messagesAt_insert, if_pos rfl]
    · exact hxs
  refine ⟨_, pre, post, h1, hxs, hpre, hnew, ?_, ?_⟩
  · rw [hnew, hxs]; simp
  · rw [hnew, hxs]; simp [categoriesOf, GetCategory]

/-- Witness for C10: "r" holds `foo` with subcategory `bar`; ("r", "foo.baz")
extends the list to `bar`, `baz`. -/
theorem Ingest_updates_existing_witness :
    ∃ s1 pre post,
      Ingest (Finmap.singleton "r" [metricCategoryWithSubCategory "foo" ["bar"]]) "r" "foo.baz"
        = some s1 ∧
      messagesAt (Finmap.singleton "r" [metricCategoryWithSubCategory "foo" ["bar"]]) "r"
        = pre ++ metricCategoryWithSubCategory "foo" ["bar"] :: post ∧
      "foo" ∉ categoriesOf pre ∧
      messagesAt s1 "r" = pre ++ metricCategoryWithSubCategory "foo"
        (if "baz" ≠ "" ∧ "baz" ∉ ["bar"] then ["bar"] ++ ["baz"] else ["bar"]) :: post ∧
      (messagesAt s1 "r").length
        = (messagesAt (Finmap.singleton "r"
            [metricCategoryWithSubCategory "foo" ["bar"]]) "r").length ∧
      categoriesOf (messagesAt s1 "r")
        = categoriesOf (messagesAt (Finmap.singleton "r"
            [metricCategoryWithSubCategory "foo" ["bar"]]) "r") :=
  Ingest_updates_existing (Finmap.singleton "r" [metricCategoryWithSubCategory "foo" ["bar"]])
    "r" "foo.baz" "foo" "baz" ["bar"] (by decide) (by decide)

/-! ## Sequences of events -/

theorem IngestAll_cons (s s1 : Store) (e : String × String) (rest : List (String × String))
    (h : Ingest s e.1 e.2 = some s1) : IngestAll s (e :: rest) = IngestAll s1 rest := by
  simp [IngestAll, h]

theorem IngestAll_categories (events : List (String × String)) (s : Store) (o : String) :
    ∃ s1, IngestAll s events = some s1 ∧
      categoriesOf (messagesAt s1 o) =
        ((events.filter (fun e => e.1 = o)).map (fun e => (parseMetric e.2).1)).foldl
          (fun acc x => if x ∈ acc then acc else acc ++ [x])
          (categoriesOf (messagesAt s o)) := by
  induction events generalizing s with
  | nil => exact ⟨s, rfl, rfl⟩
  | cons e rest ih =>
    obtain ⟨s1, h1, hcat⟩ := categoriesOf_Ingest s e.1 e.2 o
    obtain ⟨s2, h2, hcat2⟩ := ih s1
    refine ⟨s2, by rw [IngestAll_cons s s1 e rest h1]; exact h2, ?_⟩
    rw [hcat2, hcat]
    by_cases ho : e.1 = o
    · rw [if_pos ho.symm, List.filter_cons_of_pos (by simpa using ho), List.map_cons,
        List.foldl_cons]
    · rw [if_neg (fun h => ho h.symm), List.filter_cons_of_neg (by simpa using ho)]

/-- C3: after any finite sequence of events ingested from the empty store, the
categories of an origin's entries are the categories of that origin's events in
arrival order, each kept at its first occurrence only. -/
theorem categories_in_first_seen_order (events : List (String × String)) (o : String) :
    ∃ s, IngestAll ∅ events = some s ∧
      categoriesOf (messagesAt s o) =
        firstSeen ((events.filter (fun e => e.1 = o)).map (fun e => (parseMetric e.2).1)) := by
  obtain ⟨s, h, hcat⟩ := IngestAll_categories events ∅ o
  refine ⟨s, h, ?_⟩
  rw [hcat, messagesAt_empty]
  rfl

/-- How one ingest step changes the first entry for a category of any origin. -/
theorem firstFor_Ingest (s : Store) (o n o1 c1 : String) :
    ∃ s1, Ingest s o n = some s1 ∧
      firstFor (messagesAt s1 o1) c1 =
        if o = o1 ∧ (parseMetric n).1 = c1 then
          (match firstFor (messagesAt s o1) c1 with
           | none => some (if (parseMetric n).2 = "" then metricCategoryOnly c1
                else metricCategoryWithSubCategory c1 [(parseMetric n).2])
           | some (metricCategoryOnly c) => some (metricCategoryOnly c)
           | some (metricCategoryWithSubCategory c L) =>
             some (metricCategoryWithSubCategory c
               (if (parseMetric n).2 ≠ "" ∧ (parseMetric n).2 ∉ L then
                 L ++ [(parseMetric n).2] else L)))
        else firstFor (messagesAt s o1) c1 := by
  obtain ⟨s1, h1, hother, hcase⟩ := Ingest_effect s o n
  refine ⟨s1, h1, ?_⟩
  by_cases ho : o = o1
  · subst ho
    by_cases hc : (parseMetric n).1 = c1
    · subst hc
      rw [if_pos ⟨rfl, rfl⟩]
      rcases hcase with ⟨hmem, hnew⟩ | ⟨pre, post, hxs, hpre, hs⟩ |
        ⟨pre, L, post, hxs, hpre, hnew, -⟩
      · rw [find_none hmem, hnew]
        exact find_first [] hmem (GetCategory_new _ _)
      · rw [hs, hxs, find_first (e := metricCategoryOnly _) post hpre rfl]
      · rw [hnew, hxs, find_first (e := metricCategoryWithSubCategory _ _) post hpre rfl,
          find_first (e := metricCategoryWithSubCategory _ _) post hpre rfl]
    · rw [if_neg (fun h => hc h.2)]
      rcases hcase with ⟨-, hnew⟩ | ⟨pre, post, -, -, hs⟩ | ⟨pre, L, post, hxs, -, hnew, -⟩
      · rw [hnew]
        simp [firstFor, List.find?_append, List.find?_cons, GetCategory_new, hc]
      · rw [hs]
      · rw [hnew, hxs]
        simp [firstFor, List.find?_append, List.find?_cons, GetCategory, hc]
  · rw [if_neg (fun h => ho h.1), hother o1 (fun h => ho h.symm)]

theorem remaindersFor_cons (e : String × String) (rest : List (String × String))
    (o c : String) :
    remaindersFor (e :: rest) o c =
      if e.1 = o ∧ (parseMetric e.2).1 = c ∧ (parseMetric e.2).2 ≠ "" then
        (parseMetric e.2).2 :: remaindersFor rest o c
      else remaindersFor rest o c := by
  unfold remaindersFor
  split
  · rename_i h
    rw [List.filter_cons_of_pos (by simpa using h), List.map_cons]
  · rename_i h
    rw [List.filter_cons_of_neg (by simpa using h)]

theorem IngestAll_subcategories (events : List (String × String)) (s : Store)
    (o c : String) (L : List String)
    (h : firstFor (messagesAt s o) c = some (metricCategoryWithSubCategory c L)) :
    ∃ s1, IngestAll s events = some s1 ∧
      firstFor (messagesAt s1 o) c = some (metricCategoryWithSubCategory c
        ((remaindersFor events o c).foldl
          (fun acc x => if x ∈ acc then acc else acc ++ [x]) L)) := by
  induction events generalizing s L with
  | nil => exact ⟨s, rfl, h⟩
  | cons e rest ih =>
    obtain ⟨s1, h1, hf⟩ := firstFor_Ingest s e.1 e.2 o c
    rw [IngestAll_cons s s1 e rest h1, remaindersFor_cons]
    by_cases hm : e.1 = o ∧ (parseMetric e.2).1 = c
    · rw [if_pos hm, h] at hf
      obtain ⟨s2, h2, hf2⟩ := ih s1 _ hf
      refine ⟨s2, h2, ?_⟩
      rw [hf2]
      by_cases hr : (parseMetric e.2).2 = ""
      · simp [hm, hr]
      · by_cases hin : (parseMetric e.2).2 ∈ L
        · simp [hm, hr, hin]
        · simp [hm, hr, hin]
    · rw [if_neg hm] at hf
      obtain ⟨s2, h2, hf2⟩ := ih s1 L (hf.trans h)
      refine ⟨s2, h2, ?_⟩
      rw [hf2, if_neg (fun hh => hm ⟨hh.1, hh.2.1⟩)]

theorem IngestAll_first_subcategory (events : List (String × String)) (s : Store)
    (o c : String) (h : firstFor (messagesAt s o) c = none)
    (hfirst : ∃ e, firstEventFor events o c = some e ∧ (parseMetric e.2).2 ≠ "") :
    ∃ s1, IngestAll s events = some s1 ∧
      firstFor (messagesAt s1 o) c = some (metricCategoryWithSubCategory c
        (firstSeen (remaindersFor events o c))) := by
  induction events generalizing s with
  | nil =>
    obtain ⟨e, he, -⟩ := hfirst
    simp [firstEventFor] at he
  | cons e rest ih =>
    obtain ⟨s1, h1, hf⟩ := firstFor_Ingest s e.1 e.2 o c
    rw [IngestAll_cons s s1 e rest h1, remaindersFor_cons]
    obtain ⟨e0, he0, hr0⟩ := hfirst
    by_cases hm : e.1 = o ∧ (parseMetric e.2).1 = c
    · have hee : e0 = e := by
        rw [firstEventFor, List.find?_cons_of_pos _ (by simpa using hm)] at he0
        exact (Option.some.inj he0).symm
      subst hee
      rw [if_pos hm, h] at hf
      simp only [if_neg hr0] at hf
      obtain ⟨s2, h2, hf2⟩ := IngestAll_subcategories rest s1 o c _ hf
      refine ⟨s2, h2, ?_⟩
      rw [hf2, if_pos ⟨hm.1, hm.2, hr0⟩]
      simp [firstSeen]
    · rw [if_neg hm] at hf
      have he1 : firstEventFor rest o c = some e0 := by
        rw [firstEventFor, List.find?_cons_of_neg _ (by simpa using hm)] at he0
        exact he0
      obtain ⟨s2, h2, hf2⟩ := ih s1 (hf.trans h) ⟨e0, he1, hr0⟩
      refine ⟨s2, h2, ?_⟩
      rw [hf2, if_neg (fun hh => hm ⟨hh.1, hh.2.1⟩)]

/-- C4: after any finite sequence of events ingested from the empty store, if the
first event with origin `o` and category `c` has a non-empty remainder, the list of
`o` holds an entry with subcategories for `c` (it is the first entry for `c`) whose
subcategory list is the non-empty remainders of the events with origin `o` and
category `c`, in arrival order, each kept at its first occurrence only. -/
theorem subcategories_in_first_seen_order (events : List (String × String)) (o c : String)
    (hfirst : ∃ e, firstEventFor events o c = some e ∧ (parseMetric e.2).2 ≠ "") :
    ∃ s, IngestAll ∅ events = some s ∧
      metricCategoryWithSubCategory c (firstSeen (remaindersFor events o c))
        ∈ messagesAt s o ∧
      firstFor (messagesAt s o) c
        = some (metricCategoryWithSubCategory c (firstSeen (remaindersFor events o c))) := by
  obtain ⟨s, h, hf⟩ := IngestAll_first_subcategory events ∅ o c
    (by rw [messagesAt_empty]; rfl) hfirst
  exact ⟨s, h, List.mem_of_find?_eq_some hf, hf⟩

/-- Witness for C4: ("r", "foo.bar"), ("r", "foo.baz"), ("r", "foo.bar") from the
empty store leave "r" with the single entry `foo` with subcategories `bar`, `baz`. -/
theorem subcategories_in_first_seen_order_witness :
    firstSeen (remaindersFor [("r", "foo.bar"), ("r", "foo.baz"), ("r", "foo.bar")] "r" "foo")
      = ["bar", "baz"] ∧
    (IngestAll ∅ [("r", "foo.bar"), ("r", "foo.baz"), ("r", "foo.bar")]).map
        (fun s => messagesAt s "r")
      = some [metricCategoryWithSubCategory "foo" ["bar", "baz"]] ∧
    ∃ s, IngestAll ∅ [("r", "foo.bar"), ("r", "foo.baz"), ("r", "foo.bar")] = some s ∧
      metricCategoryWithSubCategory "foo" (firstSeen
          (remaindersFor [("r", "foo.bar"), ("r", "foo.baz"), ("r", "foo.bar")] "r" "foo"))
        ∈ messagesAt s "r" ∧
      firstFor (messagesAt s "r") "foo"
        = some (metricCategoryWithSubCategory "foo" (firstSeen
          (remaindersFor [("r", "foo.bar"), ("r", "foo.baz"), ("r", "foo.bar")] "r" "foo"))) :=
  ⟨by decide, by decide,
    subcategories_in_first_seen_order
      [("r", "foo.bar"), ("r", "foo.baz"), ("r", "foo.bar")] "r" "foo"
      ⟨("r", "foo.bar"), by decide, by decide⟩⟩

/-! ## Rendering of the subcategory column -/

theorem subCategoryLoop_none (subCat : String) (h : (parseMetric subCat).2 ≠ "")
    (fuel : Nat) (t : String) :
    subCategoryLoop subCat fuel t (parseMetric subCat).2 = none := by
  have hl : (parseMetric subCat).2.length > 0 := (length_pos_iff _).2 h
  induction fuel generalizing t with
  | zero =>
    unfold subCategoryLoop
    rw [if_pos hl]
  | succ k ih =>
    unfold subCategoryLoop
    rw [if_pos hl]
    exact ih _

theorem subCategoryLoop_empty (subCat : String) (fuel : Nat) (t : String) :
    subCategoryLoop subCat fuel t "" = some t := by
  unfold subCategoryLoop
  simp

theorem subCategoryRows_none (fuel : Nat) (subs : List String) (x : String)
    (hx : x ∈ subs) (h : (parseMetric x).2 ≠ "") (t : String) :
    subCategoryRows fuel subs t = none := by
  induction subs generalizing t with
  | nil => simp at hx
  | cons y rest ih =>
    unfold subCategoryRows
    rcases List.mem_cons.1 hx with e | m
    · subst e
      simp [subCategoryLoop_none x h]
    · cases hy : subCategoryLoop y fuel (t ++ ("<tr><td>" ++ (parseMetric y).1))
          (parseMetric y).2 with
      | none => simp [hy]
      | some t1 => simp [hy, ih m]

/-- Rendering does not return for an entry that has a subcategory with a non-empty
remainder after its first `.`: the inner loop re-parses `subCat`, so its guard
never changes. -/
theorem printSubCategory_none (fuel : Nat) (c : String) (subs : List String) (x : String)
    (hx : x ∈ subs) (h : (parseMetric x).2 ≠ "") :
    printSubCategory fuel (metricCategoryWithSubCategory c subs) = none := by
  simp [printSubCategory, subCategoryRows_none fuel subs x hx h]

theorem subCategoryRows_flat (fuel : Nat) (subs : List String)
    (h : ∀ x ∈ subs, (parseMetric x).2 = "") (t : String) :
    (subCategoryRows fuel subs t).isSome = true := by
  induction subs generalizing t with
  | nil => rfl
  | cons y rest ih =>
    unfold subCategoryRows
    have hy : (parseMetric y).2 = "" := h y (List.mem_cons_self _ _)
    simp only [hy, subCategoryLoop_empty, Option.some_bind]
    exact ih (fun x hx => h x (List.mem_cons_of_mem _ hx)) _

/-- Rendering returns, with no iteration of the inner loop, for an entry all of
whose subcategories have an empty remainder. -/
theorem printSubCategory_flat (fuel : Nat) (c : String) (subs : List String)
    (h : ∀ x ∈ subs, (parseMetric x).2 = "") :
    (printSubCategory fuel (metricCategoryWithSubCategory c subs)).isSome = true := by
  simp [printSubCategory, subCategoryRows_flat fuel subs h]

/-- C5, evaluated on the code: ingesting ("r", "foo.bar.baz") stores the
subcategory `bar.baz`, and for that entry `printSubCategory` returns nothing
however many iterations its inner loop is allowed. -/
theorem printSubCategory_diverges_on_dotted_subcategory :
    (IngestAll ∅ [("r", "foo.bar.baz")]).map (fun s => messagesAt s "r")
      = some [metricCategoryWithSubCategory "foo" ["bar.baz"]] ∧
    parseMetric "bar.baz" = ("bar", "baz") ∧
    ∀ fuel : Nat,
      printSubCategory fuel (metricCategoryWithSubCategory "foo" ["bar.baz"]) = none :=
  ⟨by decide, by decide, fun fuel =>
    printSubCategory_none fuel "foo" ["bar.baz"] "bar.baz" (by simp) (by decide)⟩

/-! ## The aggregate of the report -/

theorem originLoop_eq_sum (origin : List metricCategory) (total : Nat) :
    originLoop total origin = total + (origin.map leafWeight).sum := by
  induction origin generalizing total with
  | nil => simp [originLoop]
  | cons x rest ih =>
    simp only [originLoop, List.foldl_cons, List.map_cons, List.sum_cons] at ih ⊢
    rw [ih (categoryGroupStep total x)]
    cases x <;> simp only [categoryGroupStep, leafWeight] <;> omega

theorem foldl_originLoop_eq_sum (l : List (Sigma (fun _ : String => List metricCategory)))
    (d : Nat) :
    List.foldl (fun d e => originLoop d e.2) d l
      = d + (l.map (fun e => (e.2.map leafWeight).sum)).sum := by
  induction l generalizing d with
  | nil => simp
  | cons e rest ih =>
    simp only [List.foldl_cons, List.map_cons, List.sum_cons]
    rw [ih, originLoop_eq_sum]
    omega

theorem totalMetrics_eq_spec (s : Store) : totalMetrics s = specTotalMetrics s := by
  induction s using Finmap.induction_on with
  | H a =>
    simp only [totalMetrics, specTotalMetrics, Finmap.foldl, AList.toFinmap_entries,
      Multiset.coe_foldl, Multiset.map_coe, Multiset.sum_coe]
    rw [foldl_originLoop_eq_sum]
    omega

/-- C11: `totalMetrics` is the sum, over all origins and all entries of each
origin, of 1 for a `metricCategoryOnly` entry and the number of subcategories for a
`metricCategoryWithSubCategory` entry.  After ("a", "x") and ("b", "y.z") from the
empty store there are two origins and the total is 2. -/
theorem totalMetrics_counts_leaves :
    (∀ s : Store, totalMetrics s = specTotalMetrics s) ∧
    (IngestAll ∅ [("a", "x"), ("b", "y.z")]).map
      (fun s => (s.keys.card, totalMetrics s)) = some (2, 2) :=
  ⟨totalMetrics_eq_spec, by decide⟩

theorem specTotalMetrics_insert_of_not_mem (t : Store) (o : String)
    (v : List metricCategory) (h : o ∉ t) :
    specTotalMetrics (t.insert o v) = (v.map leafWeight).sum + specTotalMetrics t := by
  simp only [specTotalMetrics, Finmap.insert_entries_of_neg h, Multiset.map_cons,
    Multiset.sum_cons]

theorem insert_erase_eq (s : Store) (o : String) (v : List metricCategory) :
    (s.erase o).insert o v = s.insert o v := by
  apply Finmap.ext_lookup
  intro x
  by_cases hx : x = o
  · subst hx
    rw [Finmap.lookup_insert, Finmap.lookup_insert]
  · rw [Finmap.lookup_insert_of_ne _ hx, Finmap.lookup_insert_of_ne _ hx,
      Finmap.lookup_erase_ne hx]

theorem specTotalMetrics_split (s : Store) (o : String) :
    specTotalMetrics s
      = ((messagesAt s o).map leafWeight).sum + specTotalMetrics (s.erase o) := by
  cases hl : s.lookup o with
  | none =>
    have he : s.erase o = s := by
      apply Finmap.ext_lookup
      intro x
      by_cases hx : x = o
      · subst hx
        rw [Finmap.lookup_erase, hl]
      · rw [Finmap.lookup_erase_ne hx]
    simp [messagesAt, hl, he]
  | some xs =>
    have he : (s.erase o).insert o xs = s := by
      apply Finmap.ext_lookup
      intro x
      by_cases hx : x = o
      · subst hx
        rw [Finmap.lookup_insert, hl]
      · rw [Finmap.lookup_insert_of_ne _ hx, Finmap.lookup_erase_ne hx]
    have h1 := specTotalMetrics_insert_of_not_mem (s.erase o) o xs Finmap.not_mem_erase_self
    rw [he] at h1
    simp [messagesAt, hl, h1]

theorem totalMetrics_insert (s : Store) (o : String) (v : List metricCategory) :
    totalMetrics (s.insert o v) + ((messagesAt s o).map leafWeight).sum
      = totalMetrics s + (v.map leafWeight).sum := by
  rw [totalMetrics_eq_spec, totalMetrics_eq_spec, specTotalMetrics_split s o,
    ← insert_erase_eq s o v,
    specTotalMetrics_insert_of_not_mem (s.erase o) o v Finmap.not_mem_erase_self]
  omega

theorem leafWeight_new (c r : String) :
    leafWeight (if r = "" then metricCategoryOnly c
      else metricCategoryWithSubCategory c [r]) = 1 := by
  split <;> rfl

/-- One ingest step either returns the store it was given, or a different store
whose total is larger by one. -/
theorem Ingest_total (s : Store) (o n : String) :
    ∃ s1, Ingest s o n = some s1 ∧
      (s1 = s ∨ (s1 ≠ s ∧ totalMetrics s1 = totalMetrics s + 1)) := by
  by_cases hmem : (parseMetric n).1 ∈ categoriesOf (messagesAt s o)
  · obtain ⟨pre, e, post, hxs, hpre, he⟩ := exists_first hmem
    cases e with
    | metricCategoryOnly c1 =>
      have hc : c1 = (parseMetric n).1 := he
      subst hc
      exact ⟨s, Ingest_only s o n pre post hxs hpre, Or.inl rfl⟩
    | metricCategoryWithSubCategory c1 L =>
      have hc : c1 = (parseMetric n).1 := he
      subst hc
      have h1 := Ingest_sub s o n pre post L hxs hpre
      by_cases hcond : (parseMetric n).2 ≠ "" ∧ (parseMetric n).2 ∉ L
      · rw [if_pos hcond] at h1
        refine ⟨_, h1, Or.inr ⟨?_, ?_⟩⟩
        · intro heq
          have hm := congrArg (fun t => messagesAt t o) heq
          simp only [messagesAt_insert, if_pos, hxs] at hm
          have hm2 := List.append_cancel_left hm
          simp at hm2
        · have ht := totalMetrics_insert s o (pre ++ metricCategoryWithSubCategory
            (parseMetric n).1 (L ++ [(parseMetric n).2]) :: post)
          rw [hxs] at ht
          simp only [List.map_append, List.map_cons, List.sum_append, List.sum_cons,
            leafWeight, List.length_append, List.length_singleton] at ht
          omega
      · rw [if_neg hcond] at h1
        exact ⟨s, h1, Or.inl rfl⟩
  · refine ⟨_, Ingest_new s o n hmem, Or.inr ⟨?_, ?_⟩⟩
    · intro heq
      have hm := congrArg (fun t => (messagesAt t o).length) heq
      simp [messagesAt_insert] at hm
    · have ht := totalMetrics_insert s o (messagesAt s o ++
        [if (parseMetric n).2 = "" then metricCategoryOnly (parseMetric n).1
         else metricCategoryWithSubCategory (parseMetric n).1 [(parseMetric n).2]])
      simp only [List.map_append, List.map_cons, List.map_nil, List.sum_append,
        List.sum_cons, List.sum_nil, leafWeight_new] at ht
      omega

/-- C16: one ingest step leaves `totalMetrics` equal or raises it by exactly one;
it never lowers it, and it leaves it equal exactly when it returns the store it was
given. -/
theorem totalMetrics_step (s : Store) (o n : String) :
    ∃ s1, Ingest s o n = some s1 ∧
      (totalMetrics s1 = totalMetrics s ∨ totalMetrics s1 = totalMetrics s + 1) ∧
      totalMetrics s ≤ totalMetrics s1 ∧
      (totalMetrics s1 = totalMetrics s ↔ s1 = s) := by
  obtain ⟨s1, h1, hcase⟩ := Ingest_total s o n
  refine ⟨s1, h1, ?_⟩
  rcases hcase with heq | ⟨hne, ht⟩
  · subst heq
    exact ⟨Or.inl rfl, le_refl _, Iff.intro (fun _ => rfl) (fun _ => rfl)⟩
  · refine ⟨Or.inr ht, by omega, Iff.intro (fun h => ?_) (fun h => absurd h hne)⟩
    omega

/-! ## Frame and monotonicity of one ingest step -/

/-- One ingest step returns the store it was given, or that store with a non-empty
list written at the event's origin. -/
theorem Ingest_shape (s : Store) (o n : String) :
    ∃ s1, Ingest s o n = some s1 ∧ (s1 = s ∨ ∃ v, v ≠ [] ∧ s1 = s.insert o v) := by
  by_cases hmem : (parseMetric n).1 ∈ categoriesOf (messagesAt s o)
  · obtain ⟨pre, e, post, hxs, hpre, he⟩ := exists_first hmem
    cases e with
    | metricCategoryOnly c1 =>
      have hc : c1 = (parseMetric n).1 := he
      subst hc
      exact ⟨s, Ingest_only s o n pre post hxs hpre, Or.inl rfl⟩
    | metricCategoryWithSubCategory c1 L =>
      have hc : c1 = (parseMetric n).1 := he
      subst hc
      have h1 := Ingest_sub s o n pre post L hxs hpre
      by_cases hcond : (parseMetric n).2 ≠ "" ∧ (parseMetric n).2 ∉ L
      · rw [if_pos hcond] at h1
        exact ⟨_, h1, Or.inr ⟨_, by simp, rfl⟩⟩
      · rw [if_neg hcond] at h1
        exact ⟨s, h1, Or.inl rfl⟩
  · exact ⟨_, Ingest_new s o n hmem, Or.inr ⟨_, by simp, rfl⟩⟩

/-- C13: one ingest step touches only the event's origin.  For any other origin the
entry list after the step is the one before, and the origin is present after the
step exactly when it was present before. -/
theorem Ingest_frame (s : Store) (o n o1 : String) (h : o1 ≠ o) :
    ∃ s1, Ingest s o n = some s1 ∧
      messagesAt s1 o1 = messagesAt s o1 ∧
      (o1 ∈ s1 ↔ o1 ∈ s) ∧
      s1.lookup o1 = s.lookup o1 := by
  obtain ⟨s1, h1, hshape⟩ := Ingest_shape s o n
  refine ⟨s1, h1, ?_⟩
  rcases hshape with heq | ⟨v, -, heq⟩
  · subst heq
    exact ⟨rfl, Iff.rfl, rfl⟩
  · subst heq
    refine ⟨by rw [messagesAt_insert, if_neg h], ?_, Finmap.lookup_insert_of_ne _ h⟩
    rw [Finmap.mem_insert]
    exact ⟨fun hh => hh.resolve_left h, Or.inr⟩

/-- Witness for C13: "a" holds one entry, the event has origin "b". -/
theorem Ingest_frame_witness :
    ∃ s1, Ingest (Finmap.singleton "a" [metricCategoryOnly "x"]) "b" "y.z" = some s1 ∧
      messagesAt s1 "a" = messagesAt (Finmap.singleton "a" [metricCategoryOnly "x"]) "a" ∧
      ("a" ∈ s1 ↔ "a" ∈ (Finmap.singleton "a" [metricCategoryOnly "x"] : Store)) ∧
      s1.lookup "a" = (Finmap.singleton "a" [metricCategoryOnly "x"] : Store).lookup "a" :=
  Ingest_frame (Finmap.singleton "a" [metricCategoryOnly "x"]) "b" "y.z" "a" (by decide)

theorem keepsEntry_refl (e : metricCategory) : keepsEntry e e := by
  cases e with
  | metricCategoryOnly c => exact rfl
  | metricCategoryWithSubCategory c L => exact ⟨rfl, List.prefix_refl L⟩

theorem getElem?_replaced (pre post : List metricCategory) (a b : metricCategory)
    (i : Nat) (e : metricCategory) (h : (pre ++ a :: post)[i]? = some e) :
    ∃ e1, (pre ++ b :: post)[i]? = some e1 ∧ (e1 = e ∨ (e = a ∧ e1 = b)) := by
  induction pre generalizing i with
  | nil =>
    cases i with
    | zero =>
      simp only [List.nil_append, List.getElem?_cons_zero, Option.some.injEq] at h ⊢
      exact ⟨b, rfl, Or.inr ⟨h.symm, rfl⟩⟩
    | succ k =>
      simp only [List.nil_append, List.getElem?_cons_succ] at h ⊢
      exact ⟨e, h, Or.inl rfl⟩
  | cons x rest ih =>
    cases i with
    | zero =>
      simp only [List.cons_append, List.getElem?_cons_zero] at h ⊢
      exact ⟨e, h, Or.inl rfl⟩
    | succ k =>
      simp only [List.cons_append, List.getElem?_cons_succ] at h ⊢
      exact ih k h

/-- C12: one ingest step removes and re-types nothing.  The origin's list does not
get shorter, and the entry at each old index keeps its category and its variant;
for an entry with subcategories the old list is a prefix of the new one. -/
theorem Ingest_keeps_entries (s : Store) (o n : String) :
    ∃ s1, Ingest s o n = some s1 ∧
      (messagesAt s o).length ≤ (messagesAt s1 o).length ∧
      ∀ (i : Nat) (e : metricCategory), (messagesAt s o)[i]? = some e →
        ∃ e1, (messagesAt s1 o)[i]? = some e1 ∧ e1.GetCategory = e.GetCategory ∧
          keepsEntry e e1 := by
  obtain ⟨s1, h1, -, hcase⟩ := Ingest_effect s o n
  refine ⟨s1, h1, ?_⟩
  rcases hcase with ⟨-, hnew⟩ | ⟨pre, post, -, -, hs⟩ | ⟨pre, L, post, hxs, -, hnew, -⟩
  · rw [hnew]
    refine ⟨by simp, fun i e he => ⟨e, ?_, rfl, keepsEntry_refl e⟩⟩
    have hi : i < (messagesAt s o).length := by
      by_contra hlt
      rw [List.getElem?_eq_none (Nat.le_of_not_lt hlt)] at he
      cases he
    rw [List.getElem?_append_left hi]
    exact he
  · subst hs
    exact ⟨le_refl _, fun i e he => ⟨e, he, rfl, keepsEntry_refl e⟩⟩
  · rw [hnew, hxs]
    refine ⟨by simp, fun i e he => ?_⟩
    obtain ⟨e1, he1, hrel⟩ := getElem?_replaced pre post _
      (metricCategoryWithSubCategory (parseMetric n).1
        (if (parseMetric n).2 ≠ "" ∧ (parseMetric n).2 ∉ L then L ++ [(parseMetric n).2]
         else L)) i e he
    refine ⟨e1, he1, ?_⟩
    rcases hrel with heq | ⟨hea, heb⟩
    · subst heq
      exact ⟨rfl, keepsEntry_refl e1⟩
    · subst hea
      subst heb
      refine ⟨rfl, rfl, ?_⟩
      split
      · exact List.prefix_append L _
      · exact List.prefix_refl L

/-! ## The origin column -/

/-- C14: `buildOriginRowSpan` is the empty string on every row but the first; on
the first row it is one `td` cell holding the origin, with the attribute
`rowspan` set to the number of categories when that number exceeds 1 and without
the attribute when it is 0 or 1. -/
theorem buildOriginRowSpan_cell (i : Int) (origin : String) (cats : List metricCategory) :
    (i ≠ 0 → buildOriginRowSpan i origin cats = "") ∧
    (1 < cats.length → buildOriginRowSpan 0 origin cats
      = "<td rowspan=" ++ toString cats.length ++ ">" ++ origin ++ "</td>") ∧
    (cats.length ≤ 1 → buildOriginRowSpan 0 origin cats = "<td>" ++ origin ++ "</td>") ∧
    buildOriginRowSpan 0 "r" [metricCategoryOnly "a", metricCategoryOnly "b",
      metricCategoryOnly "c"] = "<td rowspan=3>r</td>" ∧
    buildOriginRowSpan 0 "r" [metricCategoryOnly "a"] = "<td>r</td>" ∧
    buildOriginRowSpan 1 "r" [metricCategoryOnly "a", metricCategoryOnly "b"] = "" := by
  refine ⟨fun h => ?_, fun h => ?_, fun h => ?_, by decide, by decide, by decide⟩
  · simp [buildOriginRowSpan, h]
  · simp [buildOriginRowSpan, h]
  · have h1 : ¬ cats.length > 1 := by omega
    simp only [buildOriginRowSpan, if_true, if_neg h1]

/-! ## The index search -/

theorem indexOf_eq_neg_one_iff (xs : List metricCategory) (k : String) :
    indexOf xs k = -1 ↔ ∀ e ∈ xs, e.GetCategory ≠ k := by
  constructor
  · intro h e he hk
    have hmem : k ∈ categoriesOf xs := by
      simp only [categoriesOf, List.mem_map]
      exact ⟨e, he, hk⟩
    obtain ⟨pre, e1, post, hxs, hpre, he1⟩ := exists_first hmem
    have h2 := indexOfLoop_first post hpre he1 0
    rw [← hxs] at h2
    rw [indexOf, h2] at h
    omega
  · intro h
    apply indexOfLoop_not_mem
    intro hmem
    simp only [categoriesOf, List.mem_map] at hmem
    obtain ⟨e, he, hk⟩ := hmem
    exact h e he hk

theorem indexOf_found (xs : List metricCategory) (k : String) (h : indexOf xs k ≠ -1) :
    ∃ i : Nat, indexOf xs k = (i : Int) ∧ i < xs.length ∧
      (∃ e, xs[i]? = some e ∧ e.GetCategory = k) ∧
      ∀ j, j < i → ∀ e, xs[j]? = some e → e.GetCategory ≠ k := by
  have hmem : k ∈ categoriesOf xs := by
    by_contra hn
    exact h (indexOfLoop_not_mem hn 0)
  obtain ⟨pre, e1, post, hxs, hpre, he1⟩ := exists_first hmem
  have h2 := indexOfLoop_first post hpre he1 0
  rw [← hxs, Nat.zero_add] at h2
  refine ⟨pre.length, h2, by rw [hxs]; simp, ⟨e1, by rw [hxs]; simp [getElem_first], he1⟩, ?_⟩
  intro j hj e he hk
  rw [hxs, List.getElem?_append_left hj] at he
  apply hpre
  simp only [categoriesOf, List.mem_map]
  exact ⟨e, List.getElem?_mem he, hk⟩

/-- C19: `indexOf` returns -1 exactly when no entry has the category; otherwise it
returns the least index, within the bounds of the list, of an entry with the
category, so the lookup `messages[origin][index]` of the ingest loop never
panics. -/
theorem indexOf_least_index (xs : List metricCategory) (k : String) :
    (indexOf xs k = -1 ↔ ∀ e ∈ xs, e.GetCategory ≠ k) ∧
    (indexOf xs k ≠ -1 →
      ∃ i : Nat, indexOf xs k = (i : Int) ∧ i < xs.length ∧
        (∃ e, xs[i]? = some e ∧ e.GetCategory = k) ∧
        ∀ j, j < i → ∀ e, xs[j]? = some e → e.GetCategory ≠ k) ∧
    (∀ (s : Store) (o n : String),
      (0 ≤ indexOf (messagesAt s o) (parseMetric n).1 →
        (indexOf (messagesAt s o) (parseMetric n).1).toNat < (messagesAt s o).length) ∧
      (Ingest s o n).isSome = true) := by
  refine ⟨indexOf_eq_neg_one_iff xs k, indexOf_found xs k, fun s o n => ⟨fun h0 => ?_, ?_⟩⟩
  · have hne : indexOf (messagesAt s o) (parseMetric n).1 ≠ -1 := by omega
    obtain ⟨i, hi, hlt, -⟩ := indexOf_found _ _ hne
    rw [hi]
    exact hlt
  · obtain ⟨s1, h1, -⟩ := Ingest_shape s o n
    rw [h1]
    rfl

/-! ## Reachable stores -/

theorem NonEmptyEntries_Ingest (s : Store) (o n : String) (h : NonEmptyEntries s) :
    ∃ s1, Ingest s o n = some s1 ∧ NonEmptyEntries s1 := by
  obtain ⟨s1, h1, hother, hcase⟩ := Ingest_effect s o n
  obtain ⟨s2, h2, hshape⟩ := Ingest_shape s o n
  rw [h1] at h2
  cases h2
  refine ⟨s1, h1, fun o1 hin => ?_, fun o1 c L hin => ?_⟩
  · rcases hshape with heq | ⟨v, hv, heq⟩
    · subst heq
      exact h.1 o1 hin
    · subst heq
      rw [messagesAt_insert]
      by_cases ho : o1 = o
      · rw [if_pos ho]; exact hv
      · rw [if_neg ho]
        exact h.1 o1 ((Finmap.mem_insert.1 hin).resolve_left ho)
  · by_cases ho : o1 = o
    · subst ho
      rcases hcase with ⟨-, hnew⟩ | ⟨pre, post, -, -, hs⟩ | ⟨pre, L0, post, hxs, -, hnew, -⟩
      · rw [hnew, List.mem_append, List.mem_singleton] at hin
        rcases hin with hin | hin
        · exact h.2 o1 c L hin
        · split at hin
          · cases hin
          · rename_i hr
            cases hin
            refine ⟨by simp, ?_⟩
            intro hm
            rw [List.mem_singleton] at hm
            exact hr hm.symm
      · rw [hs] at hin
        exact h.2 o1 c L hin
      · have hL0 := h.2 o1 (parseMetric n).1 L0 (by rw [hxs]; simp)
        rw [hnew, List.mem_append, List.mem_cons] at hin
        rcases hin with hin | hin | hin
        · exact h.2 o1 c L (by rw [hxs]; simp [hin])
        · cases hin
          split
          · rename_i hcond
            refine ⟨by simp, ?_⟩
            intro hm
            rw [List.mem_append, List.mem_singleton] at hm
            rcases hm with hm | hm
            · exact hL0.2 hm
            · exact hcond.1 hm.symm
          · exact hL0
        · exact h.2 o1 c L (by rw [hxs]; simp [hin])
    · rw [hother o1 ho] at hin
      exact h.2 o1 c L hin

theorem NonEmptyEntries_IngestAll (events : List (String × String)) (s : Store)
    (h : NonEmptyEntries s) : ∃ s1, IngestAll s events = some s1 ∧ NonEmptyEntries s1 := by
  induction events generalizing s with
  | nil => exact ⟨s, rfl, h⟩
  | cons e rest ih =>
    obtain ⟨s1, h1, hinv⟩ := NonEmptyEntries_Ingest s e.1 e.2 h
    obtain ⟨s2, h2, hinv2⟩ := ih s1 hinv
    exact ⟨s2, by rw [IngestAll_cons s s1 e rest h1]; exact h2, hinv2⟩

/-- C18: the run of the ingest loop over any finite sequence of events from the
empty store returns a store in which every origin that is present has a non-empty
entry list and every entry with subcategories has a non-empty subcategory list
without the empty string. -/
theorem reachable_entries_nonempty (events : List (String × String)) :
    ∃ s, IngestAll ∅ events = some s ∧
      (∀ o, o ∈ s → messagesAt s o ≠ []) ∧
      (∀ o c L, metricCategoryWithSubCategory c L ∈ messagesAt s o → L ≠ [] ∧ "" ∉ L) ∧
      NonEmptyEntries s := by
  have h0 : NonEmptyEntries ∅ :=
    ⟨fun o ho => absurd ho Finmap.not_mem_empty,
     fun o c L hin => by simp [messagesAt_empty] at hin⟩
  obtain ⟨s, h, hinv⟩ := NonEmptyEntries_IngestAll events ∅ h0
  exact ⟨s, h, hinv.1, hinv.2, hinv⟩

/-! ## The total against the number of distinct events -/

theorem Ingest_of_Settled (s : Store) (o n : String) (h : Settled s o n) :
    Ingest s o n = some s := by
  unfold Settled at h
  cases hf : firstFor (messagesAt s o) (parseMetric n).1 with
  | none => rw [hf] at h; exact absurd h id
  | some e =>
    obtain ⟨pre, post, hxs, hpre, he⟩ := first_decomp hf
    rw [hf] at h
    cases e with
    | metricCategoryOnly c1 =>
      have hc : c1 = (parseMetric n).1 := he
      subst hc
      exact Ingest_only s o n pre post hxs hpre
    | metricCategoryWithSubCategory c1 L =>
      have hc : c1 = (parseMetric n).1 := he
      subst hc
      have h1 := Ingest_sub s o n pre post L hxs hpre
      have hcond : ¬ ((parseMetric n).2 ≠ "" ∧ (parseMetric n).2 ∉ L) := by
        intro hh
        rcases h with h | h
        · exact hh.1 h
        · exact hh.2 h
      rw [if_neg hcond] at h1
      exact h1

theorem Settled_after_Ingest (s s1 : Store) (o n : String) (h : Ingest s o n = some s1) :
    Settled s1 o n := by
  obtain ⟨s2, h2, hf⟩ := firstFor_Ingest s o n o (parseMetric n).1
  rw [h] at h2
  cases h2
  rw [if_pos ⟨rfl, rfl⟩] at hf
  unfold Settled
  rw [hf]
  cases hold : firstFor (messagesAt s o) (parseMetric n).1 with
  | none =>
    by_cases hr : (parseMetric n).2 = ""
    · simp [hr]
    · simp [hr]
  | some e =>
    cases e with
    | metricCategoryOnly c1 => simp
    | metricCategoryWithSubCategory c1 L =>
      by_cases hr : (parseMetric n).2 = ""
      · simp [hr]
      · by_cases hin : (parseMetric n).2 ∈ L
        · simp [hr, hin]
        · simp [hr, hin]

theorem Settled_stable (s s1 : Store) (o n o1 n1 : String) (hs : Settled s o n)
    (h : Ingest s o1 n1 = some s1) : Settled s1 o n := by
  obtain ⟨s2, h2, hf⟩ := firstFor_Ingest s o1 n1 o (parseMetric n).1
  rw [h] at h2
  cases h2
  unfold Settled at hs ⊢
  by_cases hc : o1 = o ∧ (parseMetric n1).1 = (parseMetric n).1
  · rw [if_pos hc] at hf
    cases hold : firstFor (messagesAt s o) (parseMetric n).1 with
    | none => rw [hold] at hs; exact absurd hs id
    | some e =>
      rw [hold] at hs hf
      cases e with
      | metricCategoryOnly c1 => rw [hf]; trivial
      | metricCategoryWithSubCategory c1 L =>
        rw [hf]
        show (parseMetric n).2 = "" ∨ (parseMetric n).2 ∈ _
        have hs1 : (parseMetric n).2 = "" ∨ (parseMetric n).2 ∈ L := hs
        rcases hs1 with hs1 | hs1
        · exact Or.inl hs1
        · right
          split
          · exact List.mem_append_left _ hs1
          · exact hs1
  · rw [if_neg hc] at hf
    rw [hf]
    exact hs

theorem IngestAll_total_le (events : List (String × String)) (s : Store)
    (seen : Finset (String × String)) (hseen : ∀ p ∈ seen, Settled s p.1 p.2) :
    ∃ s1, IngestAll s events = some s1 ∧
      totalMetrics s1 ≤ totalMetrics s + (events.toFinset \ seen).card := by
  induction events generalizing s seen with
  | nil => exact ⟨s, rfl, by simp⟩
  | cons e rest ih =>
    by_cases he : e ∈ seen
    · have h1 := Ingest_of_Settled s e.1 e.2 (hseen e he)
      obtain ⟨s2, h2, hle⟩ := ih s seen hseen
      refine ⟨s2, by rw [IngestAll_cons s s e rest h1]; exact h2, ?_⟩
      rw [List.toFinset_cons, Finset.insert_sdiff_of_mem _ he]
      exact hle
    · obtain ⟨s1, h1, hcase⟩ := Ingest_total s e.1 e.2
      have hstep : totalMetrics s1 ≤ totalMetrics s + 1 := by
        rcases hcase with heq | ⟨-, ht⟩
        · rw [heq]; omega
        · omega
      have hseen1 : ∀ p ∈ insert e seen, Settled s1 p.1 p.2 := by
        intro p hp
        rcases Finset.mem_insert.1 hp with hpe | hps
        · subst hpe
          exact Settled_after_Ingest s s1 p.1 p.2 h1
        · exact Settled_stable s s1 p.1 p.2 e.1 e.2 (hseen p hps) h1
      obtain ⟨s2, h2, hle⟩ := ih s1 (insert e seen) hseen1
      refine ⟨s2, by rw [IngestAll_cons s s1 e rest h1]; exact h2, ?_⟩
      have hset : (e :: rest).toFinset \ seen = insert e (rest.toFinset \ insert e seen) := by
        ext x
        simp only [List.toFinset_cons, Finset.mem_sdiff, Finset.mem_insert, List.mem_toFinset]
        constructor
        · rintro ⟨hx | hx, hns⟩
          · exact Or.inl hx
          · by_cases hxe : x = e
            · exact Or.inl hxe
            · exact Or.inr ⟨hx, fun hh => hh.elim hxe hns⟩
        · rintro (hx | ⟨hx, hns⟩)
          · exact ⟨Or.inl hx, by rw [hx]; exact he⟩
          · exact ⟨Or.inr hx, fun hh => hns (Or.inr hh)⟩
      have hnot : e ∉ rest.toFinset \ insert e seen := by
        simp
      rw [hset, Finset.card_insert_of_not_mem hnot]
      omega

/-- C17: after any finite sequence of events ingested from the empty store,
`totalMetrics` is at most the number of distinct (origin, name) pairs of the
sequence. -/
theorem totalMetrics_le_distinct_events (events : List (String × String)) :
    ∃ s, IngestAll ∅ events = some s ∧ totalMetrics s ≤ events.toFinset.card := by
  obtain ⟨s, h, hle⟩ := IngestAll_total_le events ∅ ∅ (fun p hp => by simp at hp)
  refine ⟨s, h, ?_⟩
  have h0 : totalMetrics (∅ : Store) = 0 := by decide
  rw [h0, Finset.sdiff_empty] at hle
  omega

end ComponentMetrics
